import Mathlib

/-!
Shallow embedding of the lucid-memory cognitive retrieval engine
(`packages/lucid-server/src/retrieval.ts` together with the storage and
context layers it drives), and theorems settling the specification
claims about it.

Numeric convention: JavaScript double arithmetic is modelled over `ℝ`;
timestamps are real-valued milliseconds.  The location-familiarity and
embedding-lifecycle layers, whose arithmetic is rational and finite,
are modelled over `ℚ` and plain lists.
-/

namespace Lucid

/-- Memory kinds (the `MemoryType` union of `storage.ts`). -/
inductive MemoryType where
  | learning
  | decision
  | context
  | bug
  | solution
  | conversation
deriving DecidableEq, Repr

/-- A stored memory; the fields the retrieval pipeline reads.  Access
history is kept alongside the memory in the store snapshot below,
mirroring the parallel arrays returned by `getAllForRetrieval`. -/
structure Memory where
  id : String
  type : MemoryType
  content : String
  gist : Option String
deriving DecidableEq, Repr

/-- A weighted directed association edge between two memories
(`Association` in `storage.ts`; the `kind` field plays no role in
retrieval and is omitted). -/
structure Association where
  sourceId : String
  targetId : String
  strength : ℝ

/-- The embedding table, memory id ↦ stored vector: models the `Map`
returned by `storage.getAllEmbeddings()` (keys unique). -/
abbrev EmbeddingMap := List (String × List ℝ)

/-- `Map.get`: the vector stored for `id`, if any. -/
def lookupEmb (embeddings : EmbeddingMap) (id : String) : Option (List ℝ) :=
  (embeddings.find? (fun p => p.1 == id)).map Prod.snd

/-! ### Vector kernel -/

/-- Dot product (componentwise over the common prefix). -/
def dot (a b : List ℝ) : ℝ := (List.zipWith (· * ·) a b).sum

/-- Modelled from the spec: `cosineSimilarity` lives in `embeddings.ts`,
which is not among the provided sources; spec §4.1 fixes it as
`dot(a,b) / (‖a‖·‖b‖)` with a zero-norm guard returning 0 and the
result clamped to `[-1, 1]`.  (No claim depends on its internals: the
claims use the same cosine the code does.) -/
noncomputable def cosineSimilarity (a b : List ℝ) : ℝ :=
  let na := Real.sqrt (dot a a)
  let nb := Real.sqrt (dot b b)
  if na = 0 ∨ nb = 0 then 0
  else max (-1) (min 1 (dot a b / (na * nb)))

/-! ### ACT-R computational functions (`retrieval.ts`) -/

/-- `computeBaseLevel` (retrieval.ts, lines 373–387): the source's
accumulator loop over the access history, with the early return 0 on an
empty history and the 1-second floor on elapsed time. -/
noncomputable def computeBaseLevel (accessTimesMs : List ℝ)
    (currentTimeMs : ℝ) (decay : ℝ) : ℝ :=
  if accessTimesMs.length = 0 then 0
  else Real.log (accessTimesMs.foldl
    (fun sum accessTime =>
      sum + max 1 ((currentTimeMs - accessTime) / 1000) ^ (-decay)) 0)

/-- `retrievalProbability` (retrieval.ts): logistic of the activation. -/
noncomputable def retrievalProbability (activation threshold noise : ℝ) : ℝ :=
  1 / (1 + Real.exp ((threshold - activation) / noise))

/-- A left fold that only adds contributions is the sum of the mapped
list, shifted by the initial accumulator. -/
theorem foldl_add_map_sum {α : Type} (f : α → ℝ) (l : List α) (c : ℝ) :
    l.foldl (fun s x => s + f x) c = c + (l.map f).sum := by
  induction l generalizing c with
  | nil => simp
  | cons x xs ih => simp [ih, add_assoc]

/-- C2: for every access-time list `H` and current time `t`, the
base-level activation equals `ln (Σ_{t_k ∈ H} max(1, (t − t_k)/1000)^(−d))`,
and for the empty access-time list it equals 0 rather than −∞. -/
theorem C2_base_level_formula (H : List ℝ) (t d : ℝ) :
    computeBaseLevel H t d =
      if H = [] then 0
      else Real.log ((H.map (fun tk => max 1 ((t - tk) / 1000) ^ (-d))).sum) := by
  rcases eq_or_ne H [] with h | h
  · simp [h, computeBaseLevel]
  · rw [if_neg h]
    unfold computeBaseLevel
    rw [if_neg (by simpa [List.length_eq_zero] using h), foldl_add_map_sum,
      zero_add]

/-! ### Spreading kernel (`retrieval.ts`) -/

/-- Contribution of one incident edge, as the source's loop body computes
it: the opposite endpoint's embedding is looked up; a missing embedding
contributes 0 (`continue`). -/
noncomputable def edgeSpread (memoryId : String) (embeddings : EmbeddingMap)
    (probeVector : List ℝ) (assoc : Association) : ℝ :=
  match lookupEmb embeddings
      (if assoc.sourceId = memoryId then assoc.targetId else assoc.sourceId) with
  | none => 0
  | some otherEmbedding =>
      assoc.strength * max 0 (cosineSimilarity probeVector otherEmbedding)

/-- `computeSpreadingActivation` (retrieval.ts, lines 396–425): filter the
association list down to the edges incident to `memoryId`, accumulate the
edge contributions, normalize by the number of incident edges. -/
noncomputable def computeSpreadingActivation (memoryId : String)
    (allAssociations : List Association) (embeddings : EmbeddingMap)
    (probeVector : List ℝ) : ℝ :=
  let relevant := allAssociations.filter
    (fun a => a.sourceId = memoryId ∨ a.targetId = memoryId)
  if relevant.length = 0 then 0
  else
    (relevant.foldl
        (fun acc assoc => acc + edgeSpread memoryId embeddings probeVector assoc) 0)
      / relevant.length

/-- The spreading formula as the spec words it:
`S(m) = (1/|E|) · Σ_{e ∈ E} e.strength · max(0, cosine(probe, emb(other)))`,
with `E` the incident edges (in either direction) and a missing opposite
embedding contributing 0.  (For `E = ∅` the Lean convention `1/0 = 0`
gives 0, matching the code's early return.) -/
noncomputable def spreadingSpecFormula (memoryId : String)
    (allAssociations : List Association) (embeddings : EmbeddingMap)
    (probeVector : List ℝ) : ℝ :=
  let E := allAssociations.filter
    (fun a => a.sourceId = memoryId ∨ a.targetId = memoryId)
  (1 / E.length) *
    (E.map (fun e => edgeSpread memoryId embeddings probeVector e)).sum

/-- C3: the spreading activation of `m` equals `(1/|E|)` times the sum over
`m`'s incident edges of `strength · max(0, cosine(probe, emb(other)))`,
where `|E|` counts all incident edges (edges whose opposite endpoint lacks
an embedding contribute 0 to the sum but still count in `|E|`), and an
edge not incident to `m` (e.g. a 2-hop edge) contributes nothing: adding
one leaves the value unchanged. -/
theorem C3_spreading_formula (memoryId : String)
    (allAssociations : List Association) (embeddings : EmbeddingMap)
    (probeVector : List ℝ) :
    computeSpreadingActivation memoryId allAssociations embeddings probeVector =
      spreadingSpecFormula memoryId allAssociations embeddings probeVector ∧
    ∀ a : Association, ¬(a.sourceId = memoryId ∨ a.targetId = memoryId) →
      computeSpreadingActivation memoryId (a :: allAssociations) embeddings
          probeVector =
        computeSpreadingActivation memoryId allAssociations embeddings
          probeVector := by
  constructor
  · show
      (if (allAssociations.filter
            (fun a => a.sourceId = memoryId ∨ a.targetId = memoryId)).length = 0
        then (0 : ℝ)
        else _ / _) = _
    set E := allAssociations.filter
      (fun a => a.sourceId = memoryId ∨ a.targetId = memoryId) with hE
    unfold spreadingSpecFormula
    rw [← hE]
    rcases eq_or_ne E [] with h | h
    · simp [h]
    · rw [if_neg (by simpa [List.length_eq_zero] using h), foldl_add_map_sum,
        zero_add]
      show _ = 1 / (E.length : ℝ) *
        (List.map (edgeSpread memoryId embeddings probeVector) E).sum
      rw [one_div, inv_mul_eq_div]
  · intro a ha
    unfold computeSpreadingActivation
    rw [List.filter_cons_of_neg]
    simpa using ha

/-! ### Retrieval pipeline (`retrieval.ts`) -/

/-- `RetrievalCandidate` of the source. -/
structure RetrievalCandidate where
  memory : Memory
  score : ℝ
  similarity : ℝ
  baseLevel : ℝ
  spreading : ℝ
  probability : ℝ

/-- `RetrievalConfig` of the source after the `{...DEFAULT_CONFIG,
...options}` merge (every field present; the legacy `limit` alias is
shadowed by `maxResults`, which the merged record always carries). -/
structure RetrievalConfig where
  maxResults : ℕ
  minProbability : ℝ
  decay : ℝ
  noise : ℝ
  threshold : ℝ
  probeWeight : ℝ
  baseLevelWeight : ℝ
  spreadingWeight : ℝ

/-- `DEFAULT_CONFIG` of the source. -/
noncomputable def DEFAULT_CONFIG : RetrievalConfig :=
  { maxResults := 10
    minProbability := 0.1
    decay := 0.5
    noise := 0.25
    threshold := 0.0
    probeWeight := 0.4
    baseLevelWeight := 0.3
    spreadingWeight := 0.3 }

/-- A snapshot of the backing store as retrieval reads it:
memories paired with their access histories (the parallel arrays of
`getAllForRetrieval`), all associations, all embeddings. -/
structure Store where
  mems : List (Memory × List ℝ)
  associations : List Association
  embeddings : EmbeddingMap

/-- Modelled from the spec: `storage.recordAccess` is in `storage.ts`,
which is not among the provided sources; per spec §4.4 step 7 and §5 it
appends one access record carrying the single `now` captured at
retrieval entry, touching nothing else. -/
def recordAccess (now : ℝ) (id : String) (st : Store) : Store :=
  { st with
    mems := st.mems.map (fun p => if p.1.id = id then (p.1, p.2 ++ [now]) else p) }

/-- The `filterType` option (retrieval.ts, lines 139–141). -/
def filterByType (filterType : Option MemoryType) :
    List (Memory × List ℝ) → List (Memory × List ℝ)
  | mems =>
    match filterType with
    | none => mems
    | some ty => mems.filter (fun p => p.1.type = ty)

/-- Insert into a list sorted by score descending: after every element of
strictly greater score and before all others.  With `sortByScoreDesc`
this models the source's `candidates.sort((a, b) => b.score - a.score)`:
ECMAScript sorts are stable, so candidates of equal score keep their
list order. -/
noncomputable def insertByScore (c : RetrievalCandidate) :
    List RetrievalCandidate → List RetrievalCandidate
  | [] => [c]
  | d :: ds =>
      if c.score < d.score then d :: insertByScore c ds else c :: d :: ds

/-- Stable sort by score descending (see `insertByScore`). -/
noncomputable def sortByScoreDesc (l : List RetrievalCandidate) :
    List RetrievalCandidate :=
  l.foldr insertByScore []

/-- Scoring of one candidate memory: the body of the loop at
retrieval.ts lines 175–219.  Memories without an embedding are skipped;
candidates below `minProbability` are dropped. -/
noncomputable def scoreCandidate (cfg : RetrievalConfig)
    (probeVector : List ℝ) (associations : List Association)
    (embeddings : EmbeddingMap) (now : ℝ) (p : Memory × List ℝ) :
    Option RetrievalCandidate :=
  match lookupEmb embeddings p.1.id with
  | none => none
  | some embedding =>
    let similarity := cosineSimilarity probeVector embedding
    let probeActivation := similarity ^ 3
    let baseLevel := computeBaseLevel p.2 now cfg.decay
    let spreading :=
      computeSpreadingActivation p.1.id associations embeddings probeVector
    let score := cfg.probeWeight * probeActivation +
      cfg.baseLevelWeight * baseLevel + cfg.spreadingWeight * spreading
    let probability := retrievalProbability score cfg.threshold cfg.noise
    if cfg.minProbability ≤ probability then
      some { memory := p.1, score := score, similarity := similarity,
             baseLevel := baseLevel, spreading := spreading,
             probability := probability }
    else none

/-- The candidate the recency-fallback branch builds (retrieval.ts,
lines 146–159): score is the base level, similarity and spreading 0. -/
noncomputable def fallbackCandidate (cfg : RetrievalConfig) (now : ℝ)
    (p : Memory × List ℝ) : RetrievalCandidate :=
  let baseLevel := computeBaseLevel p.2 now cfg.decay
  { memory := p.1, score := baseLevel, similarity := 0,
    baseLevel := baseLevel, spreading := 0,
    probability := retrievalProbability baseLevel cfg.threshold cfg.noise }

/-- `LucidRetrieval.retrieve` (retrieval.ts, lines 126–231) over a pure
store snapshot.  `embedder` models the optional `EmbeddingClient`
(`query ↦ probe vector`); the returned `Store` is the post-call state of
the backing store.  With no embedder the source takes the recency
fallback (lines 143–163): it sorts every candidate by base level and
slices, without filtering by probability and without recording accesses.
With an embedder it scores, filters, sorts, slices, then records one
access per returned memory. -/
noncomputable def retrieve (embedder : Option (String → List ℝ))
    (cfg : RetrievalConfig) (filterType : Option MemoryType) (query : String)
    (st : Store) (now : ℝ) : List RetrievalCandidate × Store :=
  let filtered := filterByType filterType st.mems
  match embedder with
  | none =>
      ((sortByScoreDesc (filtered.map (fallbackCandidate cfg now))).take
          cfg.maxResults,
        st)
  | some embed =>
      let probeVector := embed query
      let candidates := filtered.filterMap
        (scoreCandidate cfg probeVector st.associations st.embeddings now)
      let results := (sortByScoreDesc candidates).take cfg.maxResults
      (results, results.foldl (fun s c => recordAccess now c.memory.id s) st)

/-! ### Facts about the stable sort -/

/-- Score-descending order on candidates. -/
def scoreGE (a b : RetrievalCandidate) : Prop := b.score ≤ a.score

theorem perm_insertByScore (c : RetrievalCandidate)
    (m : List RetrievalCandidate) :
    List.Perm (insertByScore c m) (c :: m) := by
  induction m with
  | nil => simp [insertByScore]
  | cons d ds ih =>
    simp only [insertByScore]
    by_cases h : c.score < d.score
    · rw [if_pos h]
      exact (ih.cons d).trans (List.Perm.swap c d ds)
    · rw [if_neg h]

theorem perm_sortByScoreDesc (l : List RetrievalCandidate) :
    List.Perm (sortByScoreDesc l) l := by
  induction l with
  | nil => exact List.Perm.refl _
  | cons x xs ih =>
    exact (perm_insertByScore x (sortByScoreDesc xs)).trans (ih.cons x)

theorem sorted_insertByScore (c : RetrievalCandidate)
    (m : List RetrievalCandidate) (h : m.Sorted scoreGE) :
    (insertByScore c m).Sorted scoreGE := by
  induction m with
  | nil => simp [insertByScore, List.sorted_singleton]
  | cons d ds ih =>
    simp only [insertByScore]
    rcases List.sorted_cons.mp h with ⟨hd, hds⟩
    by_cases hcd : c.score < d.score
    · rw [if_pos hcd]
      refine List.sorted_cons.mpr ⟨?_, ih hds⟩
      intro x hx
      rcases List.mem_cons.mp ((perm_insertByScore c ds).mem_iff.mp hx) with
        rfl | hx'
      · exact le_of_lt hcd
      · exact hd x hx'
    · rw [if_neg hcd]
      have hdc : d.score ≤ c.score := not_lt.mp hcd
      refine List.sorted_cons.mpr ⟨?_, h⟩
      intro x hx
      rcases List.mem_cons.mp hx with rfl | hx'
      · exact hdc
      · exact le_trans (hd x hx') hdc

theorem sorted_sortByScoreDesc (l : List RetrievalCandidate) :
    (sortByScoreDesc l).Sorted scoreGE := by
  induction l with
  | nil => simp [sortByScoreDesc]
  | cons x xs ih => exact sorted_insertByScore x (sortByScoreDesc xs) ih

theorem filter_insertByScore (c : RetrievalCandidate)
    (m : List RetrievalCandidate) (s : ℝ) :
    (insertByScore c m).filter (fun d => d.score = s) =
      if c.score = s then c :: m.filter (fun d => d.score = s)
      else m.filter (fun d => d.score = s) := by
  induction m with
  | nil =>
    by_cases h : c.score = s <;> simp [insertByScore, h]
  | cons d ds ih =>
    simp only [insertByScore]
    by_cases hcd : c.score < d.score
    · rw [if_pos hcd]
      by_cases hcs : c.score = s
      · have hds : ¬ d.score = s := by
          rw [← hcs]
          exact ne_of_gt hcd
        simp [List.filter_cons, hds, hcs, ih]
      · simp [List.filter_cons, hcs, ih]
    · rw [if_neg hcd]
      by_cases hcs : c.score = s <;> simp [List.filter_cons, hcs]

/-- Stability of the sort: for each score value, the candidates carrying
it appear in the sorted list exactly as they appeared in the input. -/
theorem filter_sortByScoreDesc (l : List RetrievalCandidate) (s : ℝ) :
    (sortByScoreDesc l).filter (fun d => d.score = s) =
      l.filter (fun d => d.score = s) := by
  induction l with
  | nil => rfl
  | cons x xs ih =>
    show (insertByScore x (sortByScoreDesc xs)).filter _ = _
    rw [filter_insertByScore, List.filter_cons]
    by_cases hxs : x.score = s <;> simp [hxs, ih]

theorem mem_of_mem_take_sort {c : RetrievalCandidate}
    {l : List RetrievalCandidate} {n : ℕ}
    (h : c ∈ (sortByScoreDesc l).take n) : c ∈ l :=
  (perm_sortByScoreDesc l).mem_iff.mp (List.take_subset n _ h)

theorem mem_of_mem_filterByType {p : Memory × List ℝ}
    {fty : Option MemoryType} {mems : List (Memory × List ℝ)}
    (h : p ∈ filterByType fty mems) : p ∈ mems := by
  cases fty with
  | none => exact h
  | some ty => exact List.mem_of_mem_filter h

/-- C1: every candidate an embedder-mode `retrieve` returns carries
`score = probe_weight·sim³ + base_level_weight·base + spreading_weight·spread`
with the weights taken from the configuration as given and `sim` the
cosine similarity of the probe and the memory's stored embedding; its
probability is the logistic `1/(1+exp((threshold − score)/noise))` of
that score and is at least `min_probability` — so every candidate whose
retrieval probability falls below `min_probability` is excluded from the
returned results. -/
theorem C1_score_formula_and_probability_filter (cfg : RetrievalConfig)
    (embed : String → List ℝ) (filterType : Option MemoryType)
    (query : String) (st : Store) (now : ℝ) :
    ((retrieve (some embed) cfg filterType query st now).1).Forall (fun c =>
      cfg.minProbability ≤ c.probability ∧
      c.probability = retrievalProbability c.score cfg.threshold cfg.noise ∧
      ∃ hist emb, (c.memory, hist) ∈ st.mems ∧
        lookupEmb st.embeddings c.memory.id = some emb ∧
        c.score = cfg.probeWeight * cosineSimilarity (embed query) emb ^ 3 +
          cfg.baseLevelWeight * computeBaseLevel hist now cfg.decay +
          cfg.spreadingWeight * computeSpreadingActivation c.memory.id
            st.associations st.embeddings (embed query)) := by
  rw [List.forall_iff_forall_mem]
  intro c hc
  have hc' : c ∈ (filterByType filterType st.mems).filterMap
      (scoreCandidate cfg (embed query) st.associations st.embeddings now) :=
    mem_of_mem_take_sort hc
  rcases List.mem_filterMap.mp hc' with ⟨p, hp, hpc⟩
  cases hemb : lookupEmb st.embeddings p.1.id with
  | none => simp [scoreCandidate, hemb] at hpc
  | some emb =>
    simp only [scoreCandidate, hemb] at hpc
    split at hpc
    case isFalse => exact absurd hpc (by simp)
    case isTrue hmin =>
      rw [Option.some.injEq] at hpc
      subst hpc
      refine ⟨hmin, rfl, p.2, emb, ?_, hemb, rfl⟩
      simpa using mem_of_mem_filterByType hp

/-! ### Claim C4: ranking order -/

/-- The candidate list the pipeline builds before sorting (either branch
of `retrieve`); `retrieve`'s ranked output is definitionally
`(sortByScoreDesc (scoredCandidates …)).take maxResults`. -/
noncomputable def scoredCandidates (embedder : Option (String → List ℝ))
    (cfg : RetrievalConfig) (filterType : Option MemoryType) (query : String)
    (st : Store) (now : ℝ) : List RetrievalCandidate :=
  match embedder with
  | none => (filterByType filterType st.mems).map (fallbackCandidate cfg now)
  | some embed =>
      (filterByType filterType st.mems).filterMap
        (scoreCandidate cfg (embed query) st.associations st.embeddings now)

theorem retrieve_fst_eq (embedder : Option (String → List ℝ))
    (cfg : RetrievalConfig) (filterType : Option MemoryType) (query : String)
    (st : Store) (now : ℝ) :
    (retrieve embedder cfg filterType query st now).1 =
      (sortByScoreDesc
          (scoredCandidates embedder cfg filterType query st now)).take
        cfg.maxResults := by
  cases embedder <;> rfl

/-- Most-recent access in a history (0 for an empty one). -/
def lastAccess (h : List ℝ) : ℝ := h.foldr max 0

/-- The access history the snapshot stores for a memory id. -/
def histOf (st : Store) (id : String) : List ℝ :=
  ((st.mems.find? (fun p => p.1.id == id)).map Prod.snd).getD []

/-- The ordering clause asserted by claim C4: score descending, ties
broken by more recent most-recent access, then by memory id. -/
def claimOrder (st : Store) (a b : RetrievalCandidate) : Prop :=
  b.score < a.score ∨
  (a.score = b.score ∧
    (lastAccess (histOf st b.memory.id) < lastAccess (histOf st a.memory.id) ∨
     (lastAccess (histOf st a.memory.id) = lastAccess (histOf st b.memory.id) ∧
       a.memory.id ≤ b.memory.id)))

/-- C4 (amended): the returned candidates are sorted by score descending,
and the sort is stable: within each score value the returned candidates
are an initial run of the scored-candidate list in its original (store)
order — there is no recency or id tie-break.  The pipeline is a pure
function of (store snapshot, configuration, `now`, probe), so identical
inputs give identical ranked output. -/
theorem C4_amended_stable_sort (embedder : Option (String → List ℝ))
    (cfg : RetrievalConfig) (filterType : Option MemoryType) (query : String)
    (st : Store) (now : ℝ) :
    List.Sorted scoreGE (retrieve embedder cfg filterType query st now).1 ∧
    (∀ s : ℝ,
      ((retrieve embedder cfg filterType query st now).1.filter
          (fun c => c.score = s)) <+:
        ((scoredCandidates embedder cfg filterType query st now).filter
          (fun c => c.score = s))) ∧
    (∀ st' : Store, st' = st →
      retrieve embedder cfg filterType query st' now =
        retrieve embedder cfg filterType query st now) := by
  refine ⟨?_, ?_, ?_⟩
  · rw [retrieve_fst_eq]
    exact (sorted_sortByScoreDesc _).sublist
      (List.take_sublist _ _)
  · intro s
    rw [retrieve_fst_eq, ← filter_sortByScoreDesc
      (scoredCandidates embedder cfg filterType query st now) s]
    exact (List.take_prefix _ _).filter _
  · intro st' h
    rw [h]

/-! ### Concrete fixtures and evaluation lemmas -/

def memA : Memory :=
  { id := "a", type := .learning, content := "alpha", gist := none }

def memB : Memory :=
  { id := "b", type := .learning, content := "beta", gist := none }

/-- Two unit embeddings along the first axis. -/
def embsAB : EmbeddingMap := [("a", [1, 0]), ("b", [1, 0])]

/-- Snapshot for the ranking counterexample: equal embeddings, `a` last
accessed 500 ms before `now = 1000000`, `b` 100 ms before, stored in the
order `[a, b]`. -/
def stC4 : Store :=
  { mems := [(memA, [999500]), (memB, [999900])],
    associations := [],
    embeddings := embsAB }

theorem cos_e1_e1 : cosineSimilarity [1, 0] [1, 0] = 1 := by
  unfold cosineSimilarity dot
  norm_num [Real.sqrt_one]

theorem cos_e2_e1 : cosineSimilarity [0, 1] [1, 0] = 0 := by
  unfold cosineSimilarity dot
  norm_num [Real.sqrt_one]

/-- A single access within the 1-second floor yields base level 0. -/
theorem bl_single_recent (a now d : ℝ) (h : (now - a) / 1000 ≤ 1) :
    computeBaseLevel [a] now d = 0 := by
  unfold computeBaseLevel
  rw [if_neg (by simp), List.foldl_cons, List.foldl_nil, zero_add,
    max_eq_left h, Real.one_rpow, Real.log_one]

theorem spread_no_assoc (mid : String) (embs : EmbeddingMap)
    (probe : List ℝ) : computeSpreadingActivation mid [] embs probe = 0 := by
  unfold computeSpreadingActivation
  simp

/-- The logistic retrieval probability is at least 1/2 whenever the
activation reaches the threshold (positive noise). -/
theorem prob_ge_half (s τ n : ℝ) (hn : 0 < n) (h : τ - s ≤ 0) :
    (1 / 2 : ℝ) ≤ retrievalProbability s τ n := by
  unfold retrievalProbability
  have hle : Real.exp ((τ - s) / n) ≤ 1 := by
    rw [← Real.exp_zero]
    exact Real.exp_le_exp.mpr (div_nonpos_of_nonpos_of_nonneg h hn.le)
  have hpos : (0 : ℝ) < 1 + Real.exp ((τ - s) / n) := by positivity
  have h2 : (1 : ℝ) + Real.exp ((τ - s) / n) ≤ 2 := by linarith
  calc (1 / 2 : ℝ) ≤ 1 / (1 + Real.exp ((τ - s) / n)) :=
        one_div_le_one_div_of_le hpos h2
    _ = _ := rfl

/-- The candidate the pipeline builds in the C4 scenario. -/
noncomputable def candC4 (m : Memory) : RetrievalCandidate :=
  { memory := m, score := 0.4, similarity := 1, baseLevel := 0,
    spreading := 0, probability := retrievalProbability 0.4 0.0 0.25 }

theorem scoreCand_C4 (m : Memory) (t : ℝ)
    (hm : lookupEmb embsAB m.id = some [1, 0])
    (ht : (1000000 - t) / 1000 ≤ 1) :
    scoreCandidate DEFAULT_CONFIG [1, 0] [] embsAB 1000000 (m, [t]) =
      some (candC4 m) := by
  unfold scoreCandidate
  rw [hm]
  simp only [bl_single_recent t 1000000 DEFAULT_CONFIG.decay ht, cos_e1_e1,
    spread_no_assoc]
  rw [if_pos]
  · unfold candC4
    simp only [Option.some.injEq, RetrievalCandidate.mk.injEq]
    norm_num [DEFAULT_CONFIG]
  · refine le_trans (by norm_num [DEFAULT_CONFIG]) (prob_ge_half _ _ _ ?_ ?_)
    · norm_num [DEFAULT_CONFIG]
    · norm_num [DEFAULT_CONFIG]

theorem retrieveC4_eval :
    (retrieve (some fun _ => [1, 0]) DEFAULT_CONFIG none "q" stC4 1000000).1 =
      [candC4 memA, candC4 memB] := by
  have ha : scoreCandidate DEFAULT_CONFIG [1, 0] [] embsAB 1000000
      (memA, [999500]) = some (candC4 memA) :=
    scoreCand_C4 memA 999500 rfl (by norm_num)
  have hb : scoreCandidate DEFAULT_CONFIG [1, 0] [] embsAB 1000000
      (memB, [999900]) = some (candC4 memB) :=
    scoreCand_C4 memB 999900 rfl (by norm_num)
  rw [retrieve_fst_eq]
  have hcand : scoredCandidates (some fun _ => [1, 0]) DEFAULT_CONFIG none "q"
      stC4 1000000 = [candC4 memA, candC4 memB] := by
    show [(memA, ([999500] : List ℝ)), (memB, [999900])].filterMap
        (scoreCandidate DEFAULT_CONFIG [1, 0] [] embsAB 1000000) = _
    simp only [List.filterMap_cons, List.filterMap_nil, ha, hb]
  rw [hcand]
  have hsort : sortByScoreDesc [candC4 memA, candC4 memB] =
      [candC4 memA, candC4 memB] := by
    show insertByScore (candC4 memA) (insertByScore (candC4 memB) []) = _
    simp only [insertByScore]
    rw [if_neg (by norm_num [candC4])]
  rw [hsort]
  rfl

/-- C4 counterexample: with two memories of identical embeddings and
sub-second access ages the pipeline scores tie exactly; the code returns
them in store order `[a, b]` although `b`'s most-recent access (100 ms
ago) is more recent than `a`'s (500 ms ago), so the claimed
recency-then-id tie-break does not hold on the returned list. -/
theorem C4_counterexample :
    ((retrieve (some fun _ => [1, 0]) DEFAULT_CONFIG none "q" stC4
        1000000).1.map (fun c => c.memory.id) = ["a", "b"]) ∧
    ¬ ((retrieve (some fun _ => [1, 0]) DEFAULT_CONFIG none "q" stC4
        1000000).1.Pairwise (claimOrder stC4)) := by
  rw [retrieveC4_eval]
  refine ⟨rfl, fun hpw => ?_⟩
  rcases List.pairwise_cons.mp hpw with ⟨h1, _⟩
  have hco := h1 (candC4 memB) (by simp)
  unfold claimOrder at hco
  have hhb : histOf stC4 (candC4 memB).memory.id = [999900] := rfl
  have hha : histOf stC4 (candC4 memA).memory.id = [999500] := rfl
  rw [hha, hhb] at hco
  simp only [lastAccess, List.foldr_cons, List.foldr_nil] at hco
  rw [show max (999900 : ℝ) 0 = 999900 from max_eq_left (by norm_num),
    show max (999500 : ℝ) 0 = 999500 from max_eq_left (by norm_num)] at hco
  norm_num [candC4] at hco

/-! ### Claim C6: the no-embedder fallback -/

/-- C6 (amended): with no embedder configured `retrieve` does not fail:
it ranks candidates purely by base-level activation (similarity and
spreading 0, score equal to the base level), sorts descending and
truncates to `max_results` — but the `min_probability` discard of the
similarity pipeline is NOT applied in this branch: every type-filtered
memory yields a candidate up to the `max_results` cut, whatever its
retrieval probability (which is still computed and reported). -/
theorem C6_amended_fallback (cfg : RetrievalConfig) (fty : Option MemoryType)
    (query : String) (st : Store) (now : ℝ) :
    (retrieve none cfg fty query st now).1.length =
      min cfg.maxResults (filterByType fty st.mems).length ∧
    List.Sorted scoreGE (retrieve none cfg fty query st now).1 ∧
    (retrieve none cfg fty query st now).1.Forall (fun c =>
      c.similarity = 0 ∧ c.spreading = 0 ∧ c.score = c.baseLevel ∧
      c.probability =
        retrievalProbability c.baseLevel cfg.threshold cfg.noise ∧
      ∃ hist, (c.memory, hist) ∈ st.mems ∧
        c.baseLevel = computeBaseLevel hist now cfg.decay) := by
  refine ⟨?_, ?_, ?_⟩
  · rw [retrieve_fst_eq, List.length_take,
      (perm_sortByScoreDesc _).length_eq]
    show min cfg.maxResults (List.length (List.map _ _)) = _
    rw [List.length_map]
  · rw [retrieve_fst_eq]
    exact (sorted_sortByScoreDesc _).sublist (List.take_sublist _ _)
  · rw [List.forall_iff_forall_mem]
    intro c hc
    have hc' : c ∈ (filterByType fty st.mems).map
        (fallbackCandidate cfg now) := mem_of_mem_take_sort hc
    rcases List.mem_map.mp hc' with ⟨p, hp, hpc⟩
    subst hpc
    exact ⟨rfl, rfl, rfl, rfl, p.2,
      by simpa using mem_of_mem_filterByType hp, rfl⟩

/-- Snapshot with one memory, last accessed 1000 s before `now`,
and no embeddings. -/
def stIdle : Store :=
  { mems := [(memA, [0])], associations := [], embeddings := [] }

theorem bl_idle : computeBaseLevel [0] 1000000 DEFAULT_CONFIG.decay =
    -(1 / 2) * Real.log 1000 := by
  unfold computeBaseLevel
  rw [if_neg (by simp), List.foldl_cons, List.foldl_nil, zero_add,
    show ((1000000 : ℝ) - 0) / 1000 = 1000 by norm_num,
    show max (1 : ℝ) 1000 = 1000 from max_eq_right (by norm_num),
    Real.log_rpow (by norm_num : (0 : ℝ) < 1000)]
  norm_num [DEFAULT_CONFIG]

theorem prob_idle :
    retrievalProbability (-(1 / 2) * Real.log 1000) DEFAULT_CONFIG.threshold
      DEFAULT_CONFIG.noise < DEFAULT_CONFIG.minProbability := by
  unfold retrievalProbability
  rw [show (DEFAULT_CONFIG.threshold - -(1 / 2) * Real.log 1000) /
        DEFAULT_CONFIG.noise = 2 * Real.log 1000 by
      show ((0.0 : ℝ) - -(1 / 2) * Real.log 1000) / 0.25 = 2 * Real.log 1000
      ring_nf,
    two_mul, Real.exp_add, Real.exp_log (by norm_num : (0 : ℝ) < 1000)]
  show (1 : ℝ) / (1 + 1000 * 1000) < 0.1
  norm_num

theorem retrieveC6_eval :
    (retrieve none DEFAULT_CONFIG none "q" stIdle 1000000).1 =
      [fallbackCandidate DEFAULT_CONFIG 1000000 (memA, [0])] := rfl

/-- C6 counterexample: with no embedder and a single memory last accessed
1000 seconds ago, its retrieval probability is `1/1000001 < 0.1 =
min_probability`, yet the fallback branch still returns it: the
`min_probability` discard is not applied to the base-level-only
candidates. -/
theorem C6_counterexample :
    ((retrieve none DEFAULT_CONFIG none "q" stIdle 1000000).1.map
        (fun c => c.memory.id) = ["a"]) ∧
    (retrieve none DEFAULT_CONFIG none "q" stIdle 1000000).1.Forall
      (fun c => c.probability < DEFAULT_CONFIG.minProbability) := by
  rw [retrieveC6_eval]
  refine ⟨rfl, ?_⟩
  show (fallbackCandidate DEFAULT_CONFIG 1000000 (memA, [0])).probability < _
  show retrievalProbability (computeBaseLevel [0] 1000000 DEFAULT_CONFIG.decay)
      DEFAULT_CONFIG.threshold DEFAULT_CONFIG.noise < _
  rw [bl_idle]
  exact prob_idle

/-! ### Claim C5: the frame of a retrieval call -/

/-- C5 counterexample: a retrieval call without an embedder returns
memory `a` in its top-k yet appends no access record at all — the
post-call store equals the pre-call store, so it is not the case that
every retrieval call appends one access record per returned memory. -/
theorem C5_counterexample :
    ((retrieve none DEFAULT_CONFIG none "q" stIdle 1000000).1.map
        (fun c => c.memory.id) = ["a"]) ∧
    (retrieve none DEFAULT_CONFIG none "q" stIdle 1000000).2 = stIdle := by
  refine ⟨?_, rfl⟩
  rw [retrieveC6_eval]
  rfl

theorem foldl_recordAccess_mems (ids : List String) (st : Store) (now : ℝ)
    (hnd : ids.Nodup) :
    (ids.foldl (fun s i => recordAccess now i s) st).mems =
      st.mems.map (fun p => if p.1.id ∈ ids then (p.1, p.2 ++ [now]) else p) := by
  induction ids generalizing st with
  | nil => simp
  | cons i is ih =>
    rw [List.foldl_cons, ih (recordAccess now i st) (hnd.of_cons)]
    show (st.mems.map _).map _ = _
    rw [List.map_map]
    have hi : i ∉ is := (List.nodup_cons.mp hnd).1
    congr 1
    funext p
    by_cases hpi : p.1.id = i
    · have : p.1.id ∉ is := by rw [hpi]; exact hi
      simp [Function.comp, hpi, this, hi]
    · simp [Function.comp, hpi]

theorem foldl_recordAccess_associations (ids : List String) (st : Store)
    (now : ℝ) :
    (ids.foldl (fun s i => recordAccess now i s) st).associations =
      st.associations := by
  induction ids generalizing st with
  | nil => rfl
  | cons i is ih => rw [List.foldl_cons, ih]; rfl

theorem foldl_recordAccess_embeddings (ids : List String) (st : Store)
    (now : ℝ) :
    (ids.foldl (fun s i => recordAccess now i s) st).embeddings =
      st.embeddings := by
  induction ids generalizing st with
  | nil => rfl
  | cons i is ih => rw [List.foldl_cons, ih]; rfl

theorem scoreCandidate_memory {cfg : RetrievalConfig} {pv : List ℝ}
    {assocs : List Association} {embs : EmbeddingMap} {now : ℝ}
    {p : Memory × List ℝ} {c : RetrievalCandidate}
    (h : scoreCandidate cfg pv assocs embs now p = some c) :
    c.memory = p.1 := by
  unfold scoreCandidate at h
  cases hemb : lookupEmb embs p.1.id with
  | none => rw [hemb] at h; exact absurd h (by simp)
  | some emb =>
    rw [hemb] at h
    simp only at h
    split at h
    · rw [Option.some.injEq] at h
      rw [← h]
    · exact absurd h (by simp)

theorem ids_filterMap_sublist {α : Type} (f : α → Option RetrievalCandidate)
    (g : α → String) (l : List α)
    (h : ∀ p c, f p = some c → c.memory.id = g p) :
    List.Sublist ((l.filterMap f).map (fun c => c.memory.id)) (l.map g) := by
  induction l with
  | nil => simp
  | cons p ps ih =>
    rw [List.filterMap_cons, List.map_cons]
    cases hf : f p with
    | none => exact ih.cons _
    | some c =>
      rw [List.map_cons, h p c hf]
      exact ih.cons₂ _

/-- The ids of the candidates an embedder-mode retrieval returns, with
no duplicate memory ids in the snapshot, are themselves without
duplicates. -/
theorem resultIds_nodup (cfg : RetrievalConfig) (embed : String → List ℝ)
    (fty : Option MemoryType) (query : String) (st : Store) (now : ℝ)
    (hnd : (st.mems.map (fun p => p.1.id)).Nodup) :
    ((retrieve (some embed) cfg fty query st now).1.map
      (fun c => c.memory.id)).Nodup := by
  have hfil : List.Sublist ((filterByType fty st.mems).map (fun p => p.1.id))
      (st.mems.map (fun p => p.1.id)) := by
    cases fty with
    | none => exact List.Sublist.refl _
    | some ty => exact (List.filter_sublist _).map _
  have hcand :
      ((scoredCandidates (some embed) cfg fty query st now).map
        (fun c => c.memory.id)).Nodup := by
    refine List.Nodup.sublist ?_ (List.Nodup.sublist hfil hnd)
    exact ids_filterMap_sublist _ _ _
      (fun p c h => by rw [scoreCandidate_memory h])
  have hperm :
      ((sortByScoreDesc (scoredCandidates (some embed) cfg fty query st
        now)).map (fun c => c.memory.id)).Nodup :=
    ((perm_sortByScoreDesc _).map _).nodup_iff.mpr hcand
  rw [retrieve_fst_eq]
  exact List.Nodup.sublist ((List.take_sublist _ _).map _) hperm

/-- C5 (amended): when an embedder is configured, exactly the memories in
the returned top-k get one new access record appended, all carrying the
single `now` captured at call entry; memories not returned (including
candidates dropped by the `min_probability` filter) keep their histories
unchanged, and no memory row, embedding or association is modified.  A
retrieval call without an embedder appends no access record at all. -/
theorem C5_amended_access_recording (cfg : RetrievalConfig)
    (embed : String → List ℝ) (fty : Option MemoryType) (query : String)
    (st : Store) (now : ℝ)
    (hnd : (st.mems.map (fun p => p.1.id)).Nodup) :
    (retrieve (some embed) cfg fty query st now).2.mems =
      st.mems.map (fun p =>
        if p.1.id ∈ (retrieve (some embed) cfg fty query st now).1.map
            (fun c => c.memory.id)
        then (p.1, p.2 ++ [now]) else p) ∧
    (retrieve (some embed) cfg fty query st now).2.associations =
      st.associations ∧
    (retrieve (some embed) cfg fty query st now).2.embeddings =
      st.embeddings ∧
    (retrieve none cfg fty query st now).2 = st := by
  have hfold : (retrieve (some embed) cfg fty query st now).2 =
      ((retrieve (some embed) cfg fty query st now).1.map
          (fun c => c.memory.id)).foldl
        (fun s i => recordAccess now i s) st := by
    rw [List.foldl_map]
    rfl
  have hnd' := resultIds_nodup cfg embed fty query st now hnd
  refine ⟨?_, ?_, ?_, rfl⟩
  · rw [hfold, foldl_recordAccess_mems _ _ _ hnd']
  · rw [hfold, foldl_recordAccess_associations]
  · rw [hfold, foldl_recordAccess_embeddings]

/-! ### Context assembly (`getContext`, retrieval.ts lines 281–334) -/

/-- Modelled from the spec: `estimateTokens` lives in `gist.ts`, which is
not among the provided sources; the spec charges ≈4 characters per token,
modelled as the ceiling of `length / 4`. -/
def estimateTokens (text : String) : ℕ := (text.length + 3) / 4

/-- Modelled from the spec: `generateGist` lives in `gist.ts`, which is
not among the provided sources; the spec's data model has a gist as a
short summary of at most `maxLen` characters taken from the content. -/
def generateGist (content : String) (maxLen : ℕ) : String :=
  content.take maxLen

/-- The text the context assembler charges for a candidate: its stored
gist if present, else a gist generated on the fly (line 316). -/
def contextText (c : RetrievalCandidate) : String :=
  c.memory.gist.getD (generateGist c.memory.content 150)

/-- The greedy budget loop of `getContext` (lines 311–326): include
candidates in ranked order while they fit, `break` on the first
overflow.  Returns the selection and the tokens used. -/
def budgetSelect (tokenBudget : ℕ) (tokensUsed : ℕ) :
    List RetrievalCandidate → List RetrievalCandidate × ℕ
  | [] => ([], tokensUsed)
  | c :: cs =>
    let tokens := estimateTokens (contextText c)
    if tokensUsed + tokens ≤ tokenBudget then
      let rest := budgetSelect tokenBudget (tokensUsed + tokens) cs
      (c :: rest.1, rest.2)
    else ([], tokensUsed)

/-- What `getContext` returns, together with the post-call store state. -/
structure ContextResult where
  memories : List RetrievalCandidate
  summary : String
  tokensUsed : ℕ
  store : Store

/-- The candidates surviving the similarity filter of `getContext`
(line 300): the inner retrieval's ranked output, keeping candidates with
`similarity ≥ minSimilarity`. -/
noncomputable def contextRelevant (embedder : Option (String → List ℝ))
    (currentTask : String) (st : Store) (now : ℝ) (minSimilarity : ℝ) :
    List RetrievalCandidate :=
  ((retrieve embedder { DEFAULT_CONFIG with maxResults := 10 } none
      currentTask st now).1).filter
    (fun c => minSimilarity ≤ c.similarity)

/-- `LucidRetrieval.getContext` (retrieval.ts lines 281–334): retrieve up
to 10 candidates with default configuration, drop weak matches, fill the
token budget greedily, emit the summary line. -/
noncomputable def getContext (embedder : Option (String → List ℝ))
    (currentTask : String) (st : Store) (now : ℝ)
    (tokenBudget : ℕ) (minSimilarity : ℝ) : ContextResult :=
  if (contextRelevant embedder currentTask st now minSimilarity).length = 0 then
    { memories := [], summary := "", tokensUsed := 0,
      store := (retrieve embedder { DEFAULT_CONFIG with maxResults := 10 }
        none currentTask st now).2 }
  else
    { memories := (budgetSelect tokenBudget 0
        (contextRelevant embedder currentTask st now minSimilarity)).1
      summary :=
        if (budgetSelect tokenBudget 0
            (contextRelevant embedder currentTask st now minSimilarity)).1.length
            = 0
        then ""
        else "Relevant context (" ++
          toString (budgetSelect tokenBudget 0
            (contextRelevant embedder currentTask st now minSimilarity)).1.length
          ++ " memories, ~" ++
          toString (budgetSelect tokenBudget 0
            (contextRelevant embedder currentTask st now minSimilarity)).2
          ++ " tokens):"
      tokensUsed := (budgetSelect tokenBudget 0
        (contextRelevant embedder currentTask st now minSimilarity)).2
      store := (retrieve embedder { DEFAULT_CONFIG with maxResults := 10 }
        none currentTask st now).2 }

theorem budgetSelect_spec (b : ℕ) (l : List RetrievalCandidate) (u : ℕ) :
    (budgetSelect b u l).2 =
      u + ((budgetSelect b u l).1.map
        (fun c => estimateTokens (contextText c))).sum ∧
    ((budgetSelect b u l).1 <+: l) ∧
    (u ≤ b → (budgetSelect b u l).2 ≤ b) ∧
    ((budgetSelect b u l).1 = l ∨
      ∃ c rest, l = (budgetSelect b u l).1 ++ c :: rest ∧
        b < (budgetSelect b u l).2 + estimateTokens (contextText c)) := by
  induction l generalizing u with
  | nil => exact ⟨by simp [budgetSelect], ⟨[], rfl⟩, fun h => by
      simpa [budgetSelect] using h, Or.inl rfl⟩
  | cons c cs ih =>
    by_cases hfit : u + estimateTokens (contextText c) ≤ b
    · have hres : budgetSelect b u (c :: cs) =
          (c :: (budgetSelect b (u + estimateTokens (contextText c)) cs).1,
            (budgetSelect b (u + estimateTokens (contextText c)) cs).2) := by
        simp only [budgetSelect]
        rw [if_pos hfit]
      rcases ih (u + estimateTokens (contextText c)) with ⟨hsum, hpre, hble, hstop⟩
      refine ⟨?_, ?_, ?_, ?_⟩
      · rw [hres]
        simp only [List.map_cons, List.sum_cons]
        rw [hsum]
        ring
      · rw [hres]
        rcases hpre with ⟨t, ht⟩
        exact ⟨t, by rw [List.cons_append, ht]⟩
      · intro _
        rw [hres]
        exact hble hfit
      · rcases hstop with heq | ⟨c', rest, hsplit, hover⟩
        · left
          rw [hres, heq]
        · right
          exact ⟨c', rest, by rw [hres, List.cons_append, ← hsplit],
            by rw [hres]; exact hover⟩
    · have hres : budgetSelect b u (c :: cs) = ([], u) := by
        simp only [budgetSelect]
        rw [if_neg hfit]
      refine ⟨by rw [hres]; simp, by rw [hres]; exact ⟨_, rfl⟩,
        fun h => by rw [hres]; exact h, Or.inr ⟨c, cs, by rw [hres]; rfl, ?_⟩⟩
      rw [hres]
      exact lt_of_not_le hfit

/-- Both branches of `getContext` agree with the budget-loop form: on an
empty relevant list the loop selects nothing and uses 0 tokens. -/
theorem getContext_eq (embedder : Option (String → List ℝ)) (task : String)
    (st : Store) (now : ℝ) (b : ℕ) (ms : ℝ) :
    getContext embedder task st now b ms =
      { memories := (budgetSelect b 0 (contextRelevant embedder task st now ms)).1
        summary :=
          if (budgetSelect b 0 (contextRelevant embedder task st now ms)).1.length = 0
          then ""
          else "Relevant context (" ++
            toString (budgetSelect b 0
              (contextRelevant embedder task st now ms)).1.length ++
            " memories, ~" ++
            toString (budgetSelect b 0
              (contextRelevant embedder task st now ms)).2 ++ " tokens):"
        tokensUsed := (budgetSelect b 0 (contextRelevant embedder task st now ms)).2
        store := (retrieve embedder { DEFAULT_CONFIG with maxResults := 10 }
          none task st now).2 } := by
  unfold getContext
  by_cases h : (contextRelevant embedder task st now ms).length = 0
  · rw [if_pos h, List.length_eq_zero.mp h]
    simp [budgetSelect]
  · rw [if_neg h]

/-- C9: for every task, context assembly retrieves at most 10 candidates,
keeps exactly those with raw (un-cubed) similarity ≥ 0.3 in ranked
order, greedily includes them (each charged its gist at ≈4 chars/token)
until the 300-token default budget would be exceeded, and returns the
selection together with the summary line naming the number of memories
and approximate tokens used. -/
theorem C9_context_assembly (embedder : Option (String → List ℝ))
    (task : String) (st : Store) (now : ℝ) :
    (getContext embedder task st now 300 0.3).memories.length ≤ 10 ∧
    (getContext embedder task st now 300 0.3).memories.Forall
      (fun c => (0.3 : ℝ) ≤ c.similarity) ∧
    ((getContext embedder task st now 300 0.3).memories <+:
      contextRelevant embedder task st now 0.3) ∧
    (getContext embedder task st now 300 0.3).tokensUsed =
      ((getContext embedder task st now 300 0.3).memories.map
        (fun c => estimateTokens (contextText c))).sum ∧
    (getContext embedder task st now 300 0.3).tokensUsed ≤ 300 ∧
    ((getContext embedder task st now 300 0.3).memories =
        contextRelevant embedder task st now 0.3 ∨
      ∃ c rest, contextRelevant embedder task st now 0.3 =
          (getContext embedder task st now 300 0.3).memories ++ c :: rest ∧
        300 < (getContext embedder task st now 300 0.3).tokensUsed +
          estimateTokens (contextText c)) ∧
    (getContext embedder task st now 300 0.3).summary =
      (if (getContext embedder task st now 300 0.3).memories.length = 0
        then ""
        else "Relevant context (" ++
          toString (getContext embedder task st now 300 0.3).memories.length ++
          " memories, ~" ++
          toString (getContext embedder task st now 300 0.3).tokensUsed ++
          " tokens):") := by
  obtain ⟨hsum, hpre, hble, hstop⟩ :=
    budgetSelect_spec 300 (contextRelevant embedder task st now 0.3) 0
  rw [getContext_eq]
  refine ⟨?_, ?_, hpre, by rw [hsum, Nat.zero_add], hble (by norm_num),
    hstop, rfl⟩
  · calc (budgetSelect 300 0 (contextRelevant embedder task st now 0.3)).1.length
        ≤ (contextRelevant embedder task st now 0.3).length :=
          hpre.length_le
      _ ≤ ((retrieve embedder { DEFAULT_CONFIG with maxResults := 10 } none
            task st now).1).length := List.length_filter_le _ _
      _ ≤ 10 := by
          rw [retrieve_fst_eq]
          exact List.length_take_le _ _
  · rw [List.forall_iff_forall_mem]
    intro c hc
    have hc' : c ∈ contextRelevant embedder task st now 0.3 :=
      hpre.subset hc
    simpa using (List.mem_filter.mp hc').2

/-! ### Claim C10: getContext reinforces what the inner retrieve returns -/

/-- C10 (amended): for a `getContext` call with an embedder configured,
the store side effect is exactly the inner retrieval's: every memory of
the inner up-to-10 ranked result gets one access record at `now`
appended — including candidates that `getContext` then excludes via the
0.3 similarity filter or the token budget, which the caller never
receives; a `getContext` call without an embedder appends no access
record at all. -/
theorem C10_amended_inner_reinforcement (embed : String → List ℝ)
    (task : String) (st : Store) (now : ℝ)
    (hnd : (st.mems.map (fun p => p.1.id)).Nodup) :
    (getContext (some embed) task st now 300 0.3).store.mems =
      st.mems.map (fun p =>
        if p.1.id ∈ (retrieve (some embed)
            { DEFAULT_CONFIG with maxResults := 10 } none task st now).1.map
            (fun c => c.memory.id)
        then (p.1, p.2 ++ [now]) else p) ∧
    (getContext none task st now 300 0.3).store = st := by
  constructor
  · rw [getContext_eq]
    show (retrieve (some embed) { DEFAULT_CONFIG with maxResults := 10 }
      none task st now).2.mems = _
    have hfold : (retrieve (some embed)
        { DEFAULT_CONFIG with maxResults := 10 } none task st now).2 =
        ((retrieve (some embed) { DEFAULT_CONFIG with maxResults := 10 }
            none task st now).1.map (fun c => c.memory.id)).foldl
          (fun s i => recordAccess now i s) st := by
      rw [List.foldl_map]
      rfl
    rw [hfold, foldl_recordAccess_mems _ _ _
      (resultIds_nodup _ embed none task st now hnd)]
  · rw [getContext_eq]
    rfl

/-- C10 counterexample: a `getContext` call without an embedder whose
inner retrieve returns memory `a`, yet the store is unchanged — no
access record is appended for any internally returned memory. -/
theorem C10_counterexample :
    ((retrieve none { DEFAULT_CONFIG with maxResults := 10 } none "t"
        stIdle 1000000).1.map (fun c => c.memory.id) = ["a"]) ∧
    (getContext none "t" stIdle 1000000 300 0.3).store = stIdle := by
  refine ⟨rfl, ?_⟩
  rw [getContext_eq]
  rfl

/-- Snapshot for the reinforcement witnesses: one memory with an
embedding along the first axis. -/
def stW : Store :=
  { mems := [(memA, [999500])], associations := [],
    embeddings := [("a", [1, 0])] }

/-- C10 witness: the amended reinforcement property at a concrete call
whose probe is orthogonal to the stored embedding, so the candidate has
similarity 0 and is excluded by `getContext`, yet is reinforced. -/
theorem C10_amended_witness :
    ((getContext (some fun _ => [0, 1]) "t" stW 1000000 300 0.3).store.mems =
      stW.mems.map (fun p =>
        if p.1.id ∈ (retrieve (some fun _ => [0, 1])
            { DEFAULT_CONFIG with maxResults := 10 } none "t" stW
            1000000).1.map (fun c => c.memory.id)
        then (p.1, p.2 ++ [1000000]) else p) ∧
    (getContext none "t" stW 1000000 300 0.3).store = stW) :=
  C10_amended_inner_reinforcement (fun _ => [0, 1]) "t" stW 1000000
    (by simp [stW, memA])

/-- C5 witness: the amended access-recording property at a concrete
embedder-mode call. -/
theorem C5_amended_witness :
    ((retrieve (some fun _ => [1, 0]) DEFAULT_CONFIG none "q" stW
        1000000).2.mems =
      stW.mems.map (fun p =>
        if p.1.id ∈ (retrieve (some fun _ => [1, 0]) DEFAULT_CONFIG none "q"
            stW 1000000).1.map (fun c => c.memory.id)
        then (p.1, p.2 ++ [1000000]) else p) ∧
    (retrieve (some fun _ => [1, 0]) DEFAULT_CONFIG none "q" stW
        1000000).2.associations = stW.associations ∧
    (retrieve (some fun _ => [1, 0]) DEFAULT_CONFIG none "q" stW
        1000000).2.embeddings = stW.embeddings ∧
    (retrieve none DEFAULT_CONFIG none "q" stW 1000000).2 = stW) :=
  C5_amended_access_recording DEFAULT_CONFIG (fun _ => [1, 0]) none "q" stW
    1000000 (by simp [stW, memA])

/-! ### Location familiarity decay (spec section 4.5) -/

/-- Modelled from the spec: the Location row of `storage.ts` is not among
the provided sources; this keeps the fields `applyFamiliarityDecay`
reads and writes — familiarity, last-accessed timestamp, pinned flag,
and whether familiarity ever exceeded the sticky threshold (which
selects the well-known floor).  Familiarity arithmetic is rational, so
it is modelled over `ℚ`. -/
structure Location where
  path : String
  familiarity : ℚ
  lastAccessedMs : ℚ
  pinned : Bool
  everExceededSticky : Bool
deriving DecidableEq, Repr

/-- Decay parameters of spec section 4.5 with their defaults: decay factor
0.1, floor 0.1, well-known floor 0.4, stale threshold 30 days. -/
structure DecayParams where
  decayFactor : ℚ := 1 / 10
  floor : ℚ := 1 / 10
  wellKnownFloor : ℚ := 2 / 5
  staleThresholdMs : ℚ := 30 * 24 * 60 * 60 * 1000
deriving DecidableEq, Repr

/-- The floor applied to one location: the well-known floor for
locations that ever exceeded the sticky threshold, else the base floor. -/
def floorFor (p : DecayParams) (loc : Location) : ℚ :=
  if loc.everExceededSticky then p.wellKnownFloor else p.floor

/-- Modelled from the spec: one location's update under
`applyFamiliarityDecay` (spec section 4.5) — unpinned locations whose
last-accessed age reaches the stale threshold get
`familiarity := max(floor_for_this_loc, familiarity · (1 − decay_factor))`;
all others are untouched. -/
def decayLocation (p : DecayParams) (now : ℚ) (loc : Location) : Location :=
  if ¬ loc.pinned ∧ p.staleThresholdMs ≤ now - loc.lastAccessedMs then
    { loc with
      familiarity := max (floorFor p loc)
        (loc.familiarity * (1 - p.decayFactor)) }
  else loc

/-- Modelled from the spec: `applyFamiliarityDecay` sweeps every
location and returns the updated store with the number changed. -/
def applyFamiliarityDecay (p : DecayParams) (now : ℚ)
    (locs : List Location) : List Location × ℕ :=
  (locs.map (decayLocation p now),
    (locs.filter (fun l => decayLocation p now l ≠ l)).length)

/-- Default decay parameters. -/
def dp0 : DecayParams := {}

/-- A location 30 days stale with familiarity 1/2 (about 10 accesses). -/
def locC7 : Location :=
  { path := "src/main.ts", familiarity := 1 / 2, lastAccessedMs := 0,
    pinned := false, everExceededSticky := false }

theorem decayC7_once :
    decayLocation dp0 (30 * 24 * 60 * 60 * 1000) locC7 =
      { locC7 with familiarity := 9 / 20 } := by
  unfold decayLocation
  rw [if_pos ⟨by simp [locC7], by norm_num [dp0, locC7]⟩]
  have hmax : max (floorFor dp0 locC7)
      (locC7.familiarity * (1 - dp0.decayFactor)) = 9 / 20 := by
    rw [show floorFor dp0 locC7 = 1 / 10 from rfl,
      show locC7.familiarity * (1 - dp0.decayFactor) = 9 / 20 by
        norm_num [locC7, dp0]]
    exact max_eq_right (by norm_num)
  rw [hmax]

theorem decayC7_twice :
    decayLocation dp0 (30 * 24 * 60 * 60 * 1000)
        { locC7 with familiarity := 9 / 20 } =
      { locC7 with familiarity := 81 / 200 } := by
  unfold decayLocation
  rw [if_pos ⟨by simp [locC7], by norm_num [dp0, locC7]⟩]
  have hmax : max (floorFor dp0 { locC7 with familiarity := 9 / 20 })
      (({ locC7 with familiarity := 9 / 20 } : Location).familiarity *
        (1 - dp0.decayFactor)) = 81 / 200 := by
    rw [show floorFor dp0 { locC7 with familiarity := 9 / 20 } = 1 / 10
        from rfl,
      show ({ locC7 with familiarity := 9 / 20 } : Location).familiarity *
          (1 - dp0.decayFactor) = 81 / 200 by norm_num [locC7, dp0]]
    exact max_eq_right (by norm_num)
  rw [hmax]

/-- C7 counterexample: with the spec formula
`max(floor, familiarity·(1−decay_factor))`, a second decay run on an
otherwise idle store multiplies again — familiarity 1/2 decays to 9/20
after one run and to 81/200 after two, so the two-run post-state differs
from the one-run post-state. -/
theorem C7_counterexample :
    (applyFamiliarityDecay dp0 (30 * 24 * 60 * 60 * 1000)
        ((applyFamiliarityDecay dp0 (30 * 24 * 60 * 60 * 1000) [locC7]).1)).1 ≠
      (applyFamiliarityDecay dp0 (30 * 24 * 60 * 60 * 1000) [locC7]).1 := by
  have h1 : (applyFamiliarityDecay dp0 (30 * 24 * 60 * 60 * 1000)
      [locC7]).1 = [{ locC7 with familiarity := 9 / 20 }] := by
    show [locC7].map (decayLocation dp0 (30 * 24 * 60 * 60 * 1000)) = _
    rw [List.map_cons, decayC7_once, List.map_nil]
  have h2 : (applyFamiliarityDecay dp0 (30 * 24 * 60 * 60 * 1000)
      [{ locC7 with familiarity := 9 / 20 }]).1 =
      [{ locC7 with familiarity := 81 / 200 }] := by
    show [{ locC7 with familiarity := 9 / 20 }].map
      (decayLocation dp0 (30 * 24 * 60 * 60 * 1000)) = _
    rw [List.map_cons, decayC7_twice, List.map_nil]
  rw [h1, h2]
  intro heq
  have := List.head_eq_of_cons_eq heq
  simp only [locC7, Location.mk.injEq] at this
  norm_num at this

theorem decayLocation_twice (p : DecayParams) (now : ℚ) (l : Location)
    (h0 : 0 ≤ p.decayFactor) (h1 : p.decayFactor ≤ 1)
    (hf : 0 ≤ p.floor) (hw : 0 ≤ p.wellKnownFloor) :
    decayLocation p now (decayLocation p now l) =
      if ¬ l.pinned ∧ p.staleThresholdMs ≤ now - l.lastAccessedMs then
        { l with
          familiarity := max (floorFor p l)
            (l.familiarity * (1 - p.decayFactor) ^ 2) }
      else l := by
  by_cases he : ¬ l.pinned ∧ p.staleThresholdMs ≤ now - l.lastAccessedMs
  · rw [if_pos he]
    have hstep : decayLocation p now l =
        { l with
          familiarity := max (floorFor p l)
            (l.familiarity * (1 - p.decayFactor)) } := by
      unfold decayLocation
      rw [if_pos he]
    rw [hstep]
    unfold decayLocation
    rw [if_pos he]
    have hc : (0 : ℚ) ≤ 1 - p.decayFactor := by linarith
    have hfl : 0 ≤ floorFor p l := by
      unfold floorFor
      by_cases hs : l.everExceededSticky <;> simp [hs, hf, hw]
    have hmul : max (floorFor p l) (l.familiarity * (1 - p.decayFactor)) *
        (1 - p.decayFactor) =
        max (floorFor p l * (1 - p.decayFactor))
          (l.familiarity * (1 - p.decayFactor) * (1 - p.decayFactor)) :=
      max_mul_of_nonneg _ _ hc
    have hfloor : max (floorFor p l) (floorFor p l * (1 - p.decayFactor)) =
        floorFor p l :=
      max_eq_left (mul_le_of_le_one_right hfl (by linarith))
    show ({ l with
      familiarity := max (floorFor p l)
        (max (floorFor p l) (l.familiarity * (1 - p.decayFactor)) *
          (1 - p.decayFactor)) } : Location) = _
    rw [hmul, ← max_assoc, hfloor]
    have : l.familiarity * (1 - p.decayFactor) * (1 - p.decayFactor) =
        l.familiarity * (1 - p.decayFactor) ^ 2 := by ring
    rw [this]
  · rw [if_neg he]
    have hstep : decayLocation p now l = l := by
      unfold decayLocation
      rw [if_neg he]
    rw [hstep, hstep]

/-- C7 (amended): familiarity decay is not idempotent in general — the
second run applies the multiplicative factor again, so two runs with no
intervening access yield `max(floor_for_loc, familiarity·(1−decay_factor)²)`
for each stale unpinned location; the second run is a no-op exactly on
locations whose familiarity already sits at their floor (in particular,
a location at its floor is a fixed point of decay). -/
theorem C7_amended_decay_compounds (p : DecayParams) (now : ℚ)
    (locs : List Location)
    (h0 : 0 ≤ p.decayFactor) (h1 : p.decayFactor ≤ 1)
    (hf : 0 ≤ p.floor) (hw : 0 ≤ p.wellKnownFloor) :
    (applyFamiliarityDecay p now
        ((applyFamiliarityDecay p now locs).1)).1 =
      locs.map (fun l =>
        if ¬ l.pinned ∧ p.staleThresholdMs ≤ now - l.lastAccessedMs then
          { l with
            familiarity := max (floorFor p l)
              (l.familiarity * (1 - p.decayFactor) ^ 2) }
        else l) ∧
    ∀ l : Location, l.familiarity = floorFor p l →
      decayLocation p now l = l := by
  constructor
  · show (locs.map (decayLocation p now)).map (decayLocation p now) = _
    rw [List.map_map]
    exact List.map_congr_left (fun l _ =>
      decayLocation_twice p now l h0 h1 hf hw)
  · intro l hl
    unfold decayLocation
    by_cases he : ¬ l.pinned ∧ p.staleThresholdMs ≤ now - l.lastAccessedMs
    · rw [if_pos he, hl]
      have hfl : 0 ≤ floorFor p l := by
        unfold floorFor
        by_cases hs : l.everExceededSticky <;> simp [hs, hf, hw]
      have : max (floorFor p l) (floorFor p l * (1 - p.decayFactor)) =
          floorFor p l :=
        max_eq_left (mul_le_of_le_one_right hfl (by linarith))
      rw [this, ← hl]
    · rw [if_neg he]

/-- C7 witness: the amended two-run formula and floor fixed point at the
default parameters on the concrete one-location store. -/
theorem C7_amended_witness :
    ((applyFamiliarityDecay dp0 (30 * 24 * 60 * 60 * 1000)
        ((applyFamiliarityDecay dp0 (30 * 24 * 60 * 60 * 1000) [locC7]).1)).1 =
      [locC7].map (fun l =>
        if ¬ l.pinned ∧ dp0.staleThresholdMs ≤
            (30 * 24 * 60 * 60 * 1000 : ℚ) - l.lastAccessedMs then
          { l with
            familiarity := max (floorFor dp0 l)
              (l.familiarity * (1 - dp0.decayFactor) ^ 2) }
        else l) ∧
    ∀ l : Location, l.familiarity = floorFor dp0 l →
      decayLocation dp0 (30 * 24 * 60 * 60 * 1000) l = l) :=
  C7_amended_decay_compounds dp0 (30 * 24 * 60 * 60 * 1000) [locC7]
    (by norm_num [dp0]) (by norm_num [dp0]) (by norm_num [dp0])
    (by norm_num [dp0])

/-! ### Embedding lifecycle (spec section 4.6) -/

/-- Embedding rows not carrying the given model tag (what a migration
deletes). -/
def staleEmbeddings (tag : String) (embs : List (String × String)) :
    List (String × String) :=
  embs.filter (fun e => e.2 ≠ tag)

/-- Embedding rows carrying the given model tag (what a migration
keeps). -/
def freshEmbeddings (tag : String) (embs : List (String × String)) :
    List (String × String) :=
  embs.filter (fun e => e.2 = tag)

/-- Owners with no embedding row. -/
def pendingOwners (mems : List String) (embs : List (String × String)) :
    List String :=
  mems.filter (fun id => (embs.find? (fun e => e.1 == id)).isNone)

/-- Modelled from the spec: the embedding-lifecycle state of `storage.ts`
(not among the provided sources): text-memory ids with their model-tagged
embedding rows (at most one per owner), and the parallel, independent
visual space. -/
structure LifecycleStore where
  memories : List String
  embeddings : List (String × String)
  visualMemories : List String
  visualEmbeddings : List (String × String)
deriving DecidableEq, Repr

/-- Modelled from the spec: `count_embeddings_not_matching(model_tag)`. -/
def countEmbeddingsNotMatching (tag : String) (s : LifecycleStore) : ℕ :=
  (staleEmbeddings tag s.embeddings).length

/-- Modelled from the spec: `delete_embeddings_not_matching(model_tag)` —
delete the stale rows, returning the count. -/
def deleteEmbeddingsNotMatching (tag : String) (s : LifecycleStore) :
    ℕ × LifecycleStore :=
  ((staleEmbeddings tag s.embeddings).length,
    { s with embeddings := freshEmbeddings tag s.embeddings })

/-- Modelled from the spec: `pending_embedding_count()` — owners with no
embedding row. -/
def pendingEmbeddingCount (s : LifecycleStore) : ℕ :=
  (pendingOwners s.memories s.embeddings).length

/-- Modelled from the spec: the visual-space
`count_embeddings_not_matching`. -/
def countVisualEmbeddingsNotMatching (tag : String) (s : LifecycleStore) :
    ℕ :=
  (staleEmbeddings tag s.visualEmbeddings).length

/-- Modelled from the spec: the visual-space
`delete_embeddings_not_matching`. -/
def deleteVisualEmbeddingsNotMatching (tag : String) (s : LifecycleStore) :
    ℕ × LifecycleStore :=
  ((staleEmbeddings tag s.visualEmbeddings).length,
    { s with visualEmbeddings := freshEmbeddings tag s.visualEmbeddings })

/-- Modelled from the spec: the visual-space pending count. -/
def pendingVisualEmbeddingCount (s : LifecycleStore) : ℕ :=
  (pendingOwners s.visualMemories s.visualEmbeddings).length

theorem stale_fresh_nil (tag : String) (embs : List (String × String)) :
    staleEmbeddings tag (freshEmbeddings tag embs) = [] := by
  unfold staleEmbeddings freshEmbeddings
  rw [List.filter_filter]
  refine List.filter_eq_nil_iff.mpr (fun a _ => ?_)
  by_cases h : a.2 = tag <;> simp [h]

theorem eq_of_mem_of_fst_eq {l : List (String × String)}
    (hnd : (l.map Prod.fst).Nodup) {e e' : String × String}
    (he : e ∈ l) (he' : e' ∈ l) (h : e.1 = e'.1) : e = e' := by
  induction l with
  | nil => cases he
  | cons x xs ih =>
    rw [List.map_cons] at hnd
    have hx : x.1 ∉ xs.map Prod.fst := (List.nodup_cons.mp hnd).1
    have hxs : (xs.map Prod.fst).Nodup := (List.nodup_cons.mp hnd).2
    rcases List.mem_cons.mp he with rfl | hem
    · rcases List.mem_cons.mp he' with rfl | hem'
      · rfl
      · exact absurd (List.mem_map.mpr ⟨e', hem', h.symm⟩) hx
    · rcases List.mem_cons.mp he' with rfl | hem'
      · exact absurd (List.mem_map.mpr ⟨e, hem, h⟩) hx
      · exact ih hxs hem hem'

/-- After a migration deletes the stale rows, each deleted row leaves its
owner pending, so the pending count dominates the deleted count. -/
theorem deleted_le_pending (tag : String) (mems : List String)
    (embs : List (String × String))
    (hsub : ∀ e ∈ embs, e.1 ∈ mems)
    (hnd : (embs.map Prod.fst).Nodup) :
    (staleEmbeddings tag embs).length ≤
      (pendingOwners mems (freshEmbeddings tag embs)).length := by
  have h1 : ((staleEmbeddings tag embs).map Prod.fst).Nodup :=
    List.Nodup.sublist ((List.filter_sublist _).map _) hnd
  have h2 : (staleEmbeddings tag embs).map Prod.fst ⊆
      pendingOwners mems (freshEmbeddings tag embs) := by
    intro o ho
    rcases List.mem_map.mp ho with ⟨e, he, rfl⟩
    have heS : e ∈ embs := List.mem_of_mem_filter he
    have hestale : ¬ e.2 = tag := by
      simpa using (List.mem_filter.mp he).2
    unfold pendingOwners
    rw [List.mem_filter]
    refine ⟨hsub e heS, ?_⟩
    cases hfind : (freshEmbeddings tag embs).find? (fun e' => e'.1 == e.1)
      with
    | none => simp [hfind]
    | some e' =>
      have he'mem : e' ∈ freshEmbeddings tag embs :=
        List.mem_of_find?_eq_some hfind
      have he'fst : e'.1 = e.1 := by
        simpa using List.find?_some hfind
      have heq : e' = e :=
        eq_of_mem_of_fst_eq hnd (List.mem_of_mem_filter he'mem) heS he'fst
      have hfreshtag : e'.2 = tag := by
        simpa using (List.mem_filter.mp he'mem).2
      rw [heq] at hfreshtag
      exact absurd hfreshtag hestale
  calc (staleEmbeddings tag embs).length
      = ((staleEmbeddings tag embs).map Prod.fst).length :=
        (List.length_map _ _).symm
    _ ≤ _ := (List.Nodup.subperm h1 h2).length_le

/-- C8: for every store and model tag, `count_embeddings_not_matching`
equals the count returned by an immediately following
`delete_embeddings_not_matching`; after that deletion the not-matching
count is 0 and the pending count is at least the deleted count (the
deleted rows' owners become pending); the same holds in the parallel
visual space, and migrating one space leaves the other intact.  The
invariants assumed are the spec's data model: every embedding row's
owner is a stored memory and each owner has at most one row. -/
theorem C8_migration_round_trip (tag : String) (s : LifecycleStore)
    (hsub : ∀ e ∈ s.embeddings, e.1 ∈ s.memories)
    (hnd : (s.embeddings.map Prod.fst).Nodup)
    (hsubv : ∀ e ∈ s.visualEmbeddings, e.1 ∈ s.visualMemories)
    (hndv : (s.visualEmbeddings.map Prod.fst).Nodup) :
    (deleteEmbeddingsNotMatching tag s).1 =
      countEmbeddingsNotMatching tag s ∧
    countEmbeddingsNotMatching tag (deleteEmbeddingsNotMatching tag s).2 =
      0 ∧
    (deleteEmbeddingsNotMatching tag s).1 ≤
      pendingEmbeddingCount (deleteEmbeddingsNotMatching tag s).2 ∧
    (deleteVisualEmbeddingsNotMatching tag s).1 =
      countVisualEmbeddingsNotMatching tag s ∧
    countVisualEmbeddingsNotMatching tag
      (deleteVisualEmbeddingsNotMatching tag s).2 = 0 ∧
    (deleteVisualEmbeddingsNotMatching tag s).1 ≤
      pendingVisualEmbeddingCount
        (deleteVisualEmbeddingsNotMatching tag s).2 ∧
    (deleteEmbeddingsNotMatching tag s).2.visualEmbeddings =
      s.visualEmbeddings ∧
    (deleteEmbeddingsNotMatching tag s).2.visualMemories =
      s.visualMemories ∧
    (deleteVisualEmbeddingsNotMatching tag s).2.embeddings =
      s.embeddings ∧
    (deleteVisualEmbeddingsNotMatching tag s).2.memories = s.memories := by
  refine ⟨rfl, ?_, ?_, rfl, ?_, ?_, rfl, rfl, rfl, rfl⟩
  · show (staleEmbeddings tag (freshEmbeddings tag s.embeddings)).length = 0
    rw [stale_fresh_nil]
    rfl
  · exact deleted_le_pending tag s.memories s.embeddings hsub hnd
  · show (staleEmbeddings tag (freshEmbeddings tag
      s.visualEmbeddings)).length = 0
    rw [stale_fresh_nil]
    rfl
  · exact deleted_le_pending tag s.visualMemories s.visualEmbeddings hsubv
      hndv

/-- A migration-test store: two stale text embeddings, one fresh, one
stale visual embedding (mirroring the migration test fixtures). -/
def lcW : LifecycleStore :=
  { memories := ["m1", "m2", "m3"],
    embeddings := [("m1", "nomic-embed-text"),
      ("m2", "text-embedding-ada-002"), ("m3", "bge-base-en-v1.5")],
    visualMemories := ["v1"],
    visualEmbeddings := [("v1", "nomic-embed-text")] }

/-- C8 witness: the migration round-trip at the concrete store `lcW`
and target tag `bge-base-en-v1.5`. -/
theorem C8_witness :
    ((deleteEmbeddingsNotMatching "bge-base-en-v1.5" lcW).1 =
      countEmbeddingsNotMatching "bge-base-en-v1.5" lcW ∧
    countEmbeddingsNotMatching "bge-base-en-v1.5"
      (deleteEmbeddingsNotMatching "bge-base-en-v1.5" lcW).2 = 0 ∧
    (deleteEmbeddingsNotMatching "bge-base-en-v1.5" lcW).1 ≤
      pendingEmbeddingCount
        (deleteEmbeddingsNotMatching "bge-base-en-v1.5" lcW).2 ∧
    (deleteVisualEmbeddingsNotMatching "bge-base-en-v1.5" lcW).1 =
      countVisualEmbeddingsNotMatching "bge-base-en-v1.5" lcW ∧
    countVisualEmbeddingsNotMatching "bge-base-en-v1.5"
      (deleteVisualEmbeddingsNotMatching "bge-base-en-v1.5" lcW).2 = 0 ∧
    (deleteVisualEmbeddingsNotMatching "bge-base-en-v1.5" lcW).1 ≤
      pendingVisualEmbeddingCount
        (deleteVisualEmbeddingsNotMatching "bge-base-en-v1.5" lcW).2 ∧
    (deleteEmbeddingsNotMatching "bge-base-en-v1.5" lcW).2.visualEmbeddings =
      lcW.visualEmbeddings ∧
    (deleteEmbeddingsNotMatching "bge-base-en-v1.5" lcW).2.visualMemories =
      lcW.visualMemories ∧
    (deleteVisualEmbeddingsNotMatching "bge-base-en-v1.5" lcW).2.embeddings =
      lcW.embeddings ∧
    (deleteVisualEmbeddingsNotMatching "bge-base-en-v1.5" lcW).2.memories =
      lcW.memories) :=
  C8_migration_round_trip "bge-base-en-v1.5" lcW (by decide) (by decide)
    (by decide) (by decide)

end Lucid
